import Mathlib

/-!
Verification of the transformation core of the Job-Analytics-Pipeline
repository (`src/transformer.py`), as a shallow embedding in Lean 4.

Python strings are modelled as Lean `String` (with character-level work on
`List Char`); Python `None` becomes `Option`; Python floats arising from
salary parsing become `ℚ` (the parser only ever adds, divides by powers of
ten, multiplies by 1000 and takes min/max, so the rational model is
order-faithful); `pandas.DataFrame` rows become a `CanonicalRecord`
structure and `drop_duplicates(subset=...)` becomes a keyed first-occurrence
deduplication on lists.  `str.lower` is modelled character-wise with
`Char.toLower` (ASCII case folding).
-/

namespace JobPipeline

/-! ### Generic character/string helpers -/

/-- Whitespace test used to model Python `str.strip`. -/
def isWS (c : Char) : Bool := c.isWhitespace

/-- Character-wise lowercasing of a string (models `str.lower`). -/
def lowerS (s : String) : String := ⟨s.data.map Char.toLower⟩

/-- Python `a in b` substring containment on strings. -/
def infixS (p s : String) : Bool := decide (p.data <:+: s.data)

/-- Drop trailing characters satisfying `isWS` (models the right half of
`str.strip`). -/
def dropTrail (l : List Char) : List Char := (l.reverse.dropWhile isWS).reverse

/-- Model of Python `str.strip()` at the character-list level. -/
def stripChars (l : List Char) : List Char := dropTrail (l.dropWhile isWS)

/-! ### `clean_text` (transformer.py lines 67-76) -/

/-- Model of `re.sub(r"\r\n", "\n", s)`: replace each leftmost
non-overlapping occurrence of CR LF by LF, scanning left to right. -/
def replCRLF : List Char → List Char
  | [] => []
  | [c] => [c]
  | c :: c2 :: rest =>
    if c = '\r' ∧ c2 = '\n' then '\n' :: replCRLF rest
    else c :: replCRLF (c2 :: rest)

/-- Model of `re.sub(r"\n+", "\n", s)`: collapse each maximal run of LF
characters to a single LF. -/
def collapseNL : List Char → List Char
  | [] => []
  | c :: rest =>
    if c = '\n' ∧ rest.head? = some '\n' then collapseNL rest
    else c :: collapseNL rest

/-- `clean_text` from transformer.py: the `if not s` guard catches both
`None` and the empty string; otherwise CR LF replacement, newline-run
collapsing and outer strip are applied in that order. -/
def clean_text (s : Option String) : String :=
  match s with
  | none => ""
  | some str =>
    if str.data = [] then ""
    else ⟨stripChars (collapseNL (replCRLF str.data))⟩

/-! ### `infer_seniority` (transformer.py lines 35-45, 150-157) -/

/-- `SENIORITY_MAP` from transformer.py, as an association list in the
insertion order of the Python dict (Python dicts iterate in insertion
order). -/
def SENIORITY_MAP : List (String × String) :=
  [("senior", "senior"), ("sr.", "senior"), ("lead", "senior"),
   ("principal", "senior"), ("staff", "senior"), ("junior", "junior"),
   ("jr.", "junior"), ("intern", "intern"), ("manager", "manager")]

/-- `infer_seniority` from transformer.py: empty (falsy) title yields `""`;
otherwise the first table entry whose keyword is a substring of the
lowercased title decides the bucket, defaulting to `"mid"`. -/
def infer_seniority (title : String) : String :=
  if title = "" then ""
  else
    let t := lowerS title
    match SENIORITY_MAP.find? (fun kv => infixS kv.1 t) with
    | some kv => kv.2
    | none => "mid"

/-! ### `extract_skills` (transformer.py lines 28-32, 88-102) -/

/-- `COMMON_SKILLS` from transformer.py. -/
def COMMON_SKILLS : List String :=
  ["python", "sql", "aws", "docker", "kubernetes", "pandas", "spark",
   "tensorflow", "pytorch", "scikit-learn", "excel", "tableau",
   "powerbi", "java", "scala", "r", "javascript"]

/-- Python regex `\w` word-character test (restricted to ASCII). -/
def isWordChar (c : Char) : Bool := c.isAlphanum || c == '_'

/-- Word-character test for the position `i` of `s` (positions outside the
string count as non-word). -/
def wordAt (s : List Char) (i : Nat) : Bool :=
  match s.drop i with
  | [] => false
  | c :: _ => isWordChar c

/-- Word-character test for the position just before `i` (the start of the
string counts as non-word). -/
def prevWord (s : List Char) (i : Nat) : Bool :=
  if i = 0 then false else wordAt s (i - 1)

/-- Does the regex `\b` + (escaped literal `pat`) + `\b` match in `s` at
offset `i`?  `\b` holds at a point iff exactly one of its two neighbouring
positions holds a word character (string edges are non-word).  For the
empty pattern this degenerates to `\b\b`, a single word-boundary test. -/
def matchesAt (s pat : List Char) (i : Nat) : Bool :=
  match pat with
  | [] => prevWord s i != wordAt s i
  | p :: _ =>
    ((s.drop i).take pat.length == pat)
    && (prevWord s i != isWordChar p)
    && (isWordChar (pat.getLastD ' ') != wordAt s (i + pat.length))

/-- Model of `re.search(r"\b" + re.escape(pat) + r"\b", s)`: the regex
engine tries every offset `0 .. s.length` left to right. -/
def regexSearchB (pat s : List Char) : Bool :=
  (List.range (s.length + 1)).any (matchesAt s pat)

/-- Lexicographic (code-point) comparison of character lists, modelling how
Python compares strings. -/
def lexLe : List Char → List Char → Bool
  | [], _ => true
  | _ :: _, [] => false
  | x :: xs, y :: ys =>
    if x.toNat < y.toNat then true
    else if y.toNat < x.toNat then false
    else lexLe xs ys

/-- Python string comparison `a <= b` (code-point lexicographic). -/
def strLe (a b : String) : Bool := lexLe a.data b.data

/-- `sorted(set(...))` on a list of strings: distinct elements in ascending
code-point order. -/
def sortedSet (l : List String) : List String :=
  List.insertionSort (fun a b => strLe a b = true) l.dedup

/-- `extract_skills` from transformer.py: a candidate skill (built-in list
plus extras) is matched when the word-boundary-anchored regex for its
lowercased name fires on the lowercased description text or on the
lowercased tag text; the lowercased matches are returned as a sorted
duplicate-free list. -/
def extract_skills (text tags : String) (extra_skills : List String) : List String :=
  let textLower := (lowerS text).data
  let tagsLower := (lowerS tags).data
  let candidates := COMMON_SKILLS ++ extra_skills
  let matched := candidates.filter (fun sk =>
    regexSearchB (lowerS sk).data textLower || regexSearchB (lowerS sk).data tagsLower)
  sortedSet (matched.map lowerS)


/-! ### `standardize_location` (transformer.py lines 105-118) -/

/-- Model of `re.sub(r"\s+", " ", s)`: collapse each maximal run of
whitespace to a single space. -/
def collapseWS : List Char → List Char
  | [] => []
  | c :: rest =>
    if isWS c then
      match rest with
      | c2 :: rest2 => if isWS c2 then collapseWS (c2 :: rest2) else ' ' :: collapseWS (c2 :: rest2)
      | [] => [' ']
    else c :: collapseWS rest

/-- Python `str.title()`: the first letter of each alphabetic run is
uppercased, the rest lowercased (ASCII model). -/
def titleCase (l : List Char) (prevAlpha : Bool := false) : List Char :=
  match l with
  | [] => []
  | c :: rest =>
    if c.isAlpha then
      (if prevAlpha then c.toLower else c.toUpper) :: titleCase rest true
    else c :: titleCase rest false

/-- `standardize_location` from transformer.py: falsy input yields `""`;
otherwise strip, lowercase and collapse internal whitespace, return the
sentinel `"Remote"` when any remote indicator token occurs as a substring,
else the title-cased text. -/
def standardize_location (loc : Option String) : String :=
  match loc with
  | none => ""
  | some str =>
    if str.data = [] then ""
    else
      let l : String := ⟨collapseWS ((lowerS ⟨stripChars str.data⟩).data)⟩
      if infixS "remote" l || infixS "anywhere" l || infixS "worldwide" l ||
         infixS "work from home" l then "Remote"
      else ⟨titleCase l.data⟩


/-! ### `parse_salary` (transformer.py lines 121-147) -/

/-- Split a character list into its maximal leading run of ASCII digits and
the remainder (models the greedy `\d+` of the salary regex). -/
def takeDigits : List Char → List Char × List Char
  | [] => ([], [])
  | c :: cs =>
    if c.isDigit then
      let p := takeDigits cs
      (c :: p.1, p.2)
    else ([], c :: cs)

/-- Split off the optional fractional part `(?:\.\d+)?` of the salary
regex: a dot immediately followed by at least one digit consumes the dot
and the maximal digit run, otherwise nothing is consumed. -/
def fracSplit (l : List Char) : List Char × List Char :=
  match l with
  | '.' :: d :: rest => if d.isDigit then takeDigits (d :: rest) else ([], l)
  | _ => ([], l)

/-- Numeric value of a digit run, as accumulated by reading left to
right. -/
def digitsVal (ds : List Char) : Nat := ds.foldl (fun a c => 10 * a + (c.toNat - 48)) 0

/-- The rational value of one matched number token, times `scale`: integer
digit run `ds`, fractional digit run `fs` (empty when there is no
fractional part), so the decimal `ds.fs` denotes
`(digitsVal ds * 10 ^ |fs| + digitsVal fs) / 10 ^ |fs|`.  `scale` is `1000`
when the token carries a `k` suffix and `1` otherwise. -/
def tokenVal (ds fs : List Char) (scale : Nat) : ℚ :=
  mkRat ((digitsVal ds * 10 ^ fs.length + digitsVal fs) * scale) (10 ^ fs.length)

/-- Fuelled scanner behind `scanNums` (fuel makes the recursion structural
so that proofs can evaluate it; `scanNums` always supplies enough fuel). -/
def scanNumsF : Nat → List Char → List ℚ
  | _, [] => []
  | 0, _ :: _ => []
  | f + 1, c :: cs =>
    if c.isDigit then
      if (fracSplit (takeDigits (c :: cs)).2).2.head? = some 'k' then
        tokenVal (takeDigits (c :: cs)).1 (fracSplit (takeDigits (c :: cs)).2).1 1000 ::
          scanNumsF f (fracSplit (takeDigits (c :: cs)).2).2.tail
      else
        tokenVal (takeDigits (c :: cs)).1 (fracSplit (takeDigits (c :: cs)).2).1 1 ::
          scanNumsF f (fracSplit (takeDigits (c :: cs)).2).2
    else scanNumsF f cs

/-- Model of `re.findall(r"(\d+(?:\.\d+)?)(k)?", s)` followed by the
value-building loop of `parse_salary`: every number token (with optional
fractional part) becomes a rational, multiplied by 1000 when immediately
followed by `k`. -/
def scanNums (l : List Char) : List ℚ := scanNumsF l.length l

/-- Python `min` over a non-empty list. -/
def listMin : List ℚ → ℚ
  | [] => 0
  | x :: xs => xs.foldl Min.min x

/-- Python `max` over a non-empty list. -/
def listMax : List ℚ → ℚ
  | [] => 0
  | x :: xs => xs.foldl Max.max x

/-- Result triple of `parse_salary` (the Python dict
`{"min": ..., "max": ..., "currency": ...}`). -/
structure SalaryInfo where
  min : Option ℚ
  max : Option ℚ
  currency : Option String
deriving DecidableEq, Repr

/-- The mis-encoded Euro-sign byte sequence that `parse_salary` tests for:
the three characters U+00E2, U+201A, U+00AC (a mojibake rendering of `€`),
exactly as they appear in the source file. -/
def euroMoji : String := "â‚¬"

/-- `s_clean` of `parse_salary`: the input with commas removed, then
lowercased. -/
def sCleanOf (str : String) : List Char :=
  (str.data.filter (fun c => c ≠ ',')).map Char.toLower

/-- The candidate numeric values `parse_salary` extracts from an input
string (the `values` list built from the regex findall). -/
def salaryCands (str : String) : List ℚ := scanNums (sCleanOf str)

/-- The currency detected by `parse_salary`: `$` (on the raw text) or
`usd` (on the comma-stripped lowercased text) give `"USD"`, else the
mis-encoded Euro sequence (raw) or `eur` (cleaned) give `"EUR"`. -/
def salaryCurrency (str : String) : Option String :=
  if infixS "$" str || decide ("usd".data <:+: sCleanOf str) then some "USD"
  else if infixS euroMoji str || decide ("eur".data <:+: sCleanOf str) then some "EUR"
  else none

/-- `parse_salary` from transformer.py: falsy or blank input yields all
nulls; otherwise currency detection plus the zero/one/many rules over the
extracted candidate values. -/
def parse_salary (s : Option String) : SalaryInfo :=
  match s with
  | none => ⟨none, none, none⟩
  | some str =>
    if stripChars str.data = [] then ⟨none, none, none⟩
    else
      match salaryCands str with
      | [] => ⟨none, none, salaryCurrency str⟩
      | [v] => ⟨some v, some v, salaryCurrency str⟩
      | v1 :: v2 :: rest =>
        ⟨some (listMin (v1 :: v2 :: rest)), some (listMax (v1 :: v2 :: rest)), salaryCurrency str⟩

/-! ### `transform_records` (transformer.py lines 160-206) -/

/-- A raw job record: the dictionary keys read by `transform_records`,
each possibly absent (`r.get(key)` yields `None`). -/
structure RawRecord where
  id : Option String := none
  url : Option String := none
  title : Option String := none
  company_name : Option String := none
  company : Option String := none
  category : Option String := none
  job_type : Option String := none
  publication_date : Option String := none
  date : Option String := none
  candidate_required_location : Option String := none
  location : Option String := none
  salary : Option String := none
  description_text : Option String := none
  description : Option String := none
  tags : Option String := none
deriving DecidableEq, Repr

/-- Python truthiness for an optional string: `None` and `""` are falsy. -/
def truthy (s : Option String) : Bool :=
  match s with
  | none => false
  | some str => str ≠ ""

/-- Python `a or b` on two optional strings (used for
`r.get("x") or r.get("y") or None`). -/
def pyOrOpt (a b : Option String) : Option String := if truthy a then a else b

/-- Python `a or b or ""` on two optional strings. -/
def pyOrStr (a b : Option String) : String :=
  match pyOrOpt a b with
  | none => ""
  | some str => if str = "" then "" else str

/-- `parse_publication_date` from transformer.py.  The falsy guard is
modelled directly; the `dateutil` best-effort parse and its
exception-to-`None` recovery are an external dependency and are abstracted
as the parameter `dp` (any parse failure is a `none` result of `dp`). -/
def parse_publication_date (dp : String → Option String) (s : Option String) : Option String :=
  match s with
  | none => none
  | some str => if str = "" then none else dp str

/-- One canonical output row of `transform_records` (the dict appended to
`out`, lines 177-197). -/
structure CanonicalRecord where
  id : Option String
  url : Option String
  title : String
  normalized_title : String
  company_name : String
  category : Option String
  job_type : Option String
  publication_date : Option String
  location : String
  remote : Bool
  salary_min : Option ℚ
  salary_max : Option ℚ
  salary_currency : Option String
  description : String
  tags : String
  skills : String
  seniority : String
  raw_record : RawRecord
deriving DecidableEq, Repr

/-- The per-record body of the loop in `transform_records` (lines
165-197): assemble one canonical row from one raw record. -/
def transformRow (dp : String → Option String) (extra_skills : List String)
    (r : RawRecord) : CanonicalRecord :=
  let desc := clean_text (some (pyOrStr r.description_text r.description))
  let tags := (pyOrOpt r.tags none).getD ""
  let title := clean_text (some (pyOrStr r.title none))
  let company := clean_text (some (pyOrStr r.company_name r.company))
  let loc := standardize_location (some (pyOrStr r.candidate_required_location r.location))
  let pub_date := parse_publication_date dp (pyOrOpt r.publication_date r.date)
  let salary := parse_salary r.salary
  let skills := extract_skills desc tags extra_skills
  let seniority := infer_seniority title
  { id := r.id
    url := r.url
    title := title
    normalized_title := lowerS title
    company_name := company
    category := r.category
    job_type := r.job_type
    publication_date := pub_date
    location := loc
    remote := loc = "Remote"
    salary_min := salary.min
    salary_max := salary.max
    salary_currency := salary.currency
    description := desc
    tags := tags
    skills := ", ".intercalate skills
    seniority := seniority
    raw_record := r }

/-- The full loop of `transform_records` before deduplication: one
canonical row per raw record, in input order. -/
def transformRows (dp : String → Option String) (extra_skills : List String)
    (records : List RawRecord) : List CanonicalRecord :=
  records.map (transformRow dp extra_skills)

/-- Keyed first-occurrence deduplication, the semantics of pandas
`DataFrame.drop_duplicates(subset=...)` with the default `keep="first"`:
a row survives iff no earlier row has an equal key (pandas compares null
keys as equal to each other). -/
def dedupSeen {K : Type} [DecidableEq K] (key : CanonicalRecord → K) :
    List CanonicalRecord → List K → List CanonicalRecord
  | [], _ => []
  | r :: rs, seen =>
    if key r ∈ seen then dedupSeen key rs seen
    else r :: dedupSeen key rs (key r :: seen)

/-- Keyed first-occurrence deduplication with no keys seen yet. -/
def dedupBy {K : Type} [DecidableEq K] (key : CanonicalRecord → K)
    (rows : List CanonicalRecord) : List CanonicalRecord :=
  dedupSeen key rows []

/-- Does any row carry a non-null identifier (`df["id"].notna().any()`)? -/
def hasNonNullId (rows : List CanonicalRecord) : Bool :=
  rows.any (fun r => r.id.isSome)

/-- The dedup key used when no non-null identifier exists: the
`(title, company_name, location)` triple. -/
def tripleKey (r : CanonicalRecord) : String × String × String :=
  (r.title, r.company_name, r.location)

/-- The deduplication pass of `transform_records` (lines 199-203): dedup
on `id` when any row has a non-null `id`, else on the
(title, company, location) triple. -/
def dedup_records (rows : List CanonicalRecord) : List CanonicalRecord :=
  if hasNonNullId rows then dedupBy (fun r => r.id) rows
  else dedupBy tripleKey rows

/-- `transform_records` from transformer.py: per-record transformation
followed by the deduplication pass.  (The final ISO rendering of
`publication_date` is the identity in this model, where parsed dates are
already carried as text.) -/
def transform_records (dp : String → Option String) (extra_skills : List String)
    (records : List RawRecord) : List CanonicalRecord :=
  dedup_records (transformRows dp extra_skills records)

example :
    (transformRow (fun _ => none) []
      { title := some "Senior Data Scientist",
        candidate_required_location := some "Worldwide",
        salary := some "$80k - $120k",
        description_text := some "We use Python, SQL and AWS.",
        tags := some "python, aws, sql" }) =
    { id := none, url := none, title := "Senior Data Scientist",
      normalized_title := "senior data scientist",
      company_name := "", category := none, job_type := none,
      publication_date := none, location := "Remote", remote := true,
      salary_min := some 80000, salary_max := some 120000,
      salary_currency := some "USD",
      description := "We use Python, SQL and AWS.",
      tags := "python, aws, sql", skills := "aws, python, sql",
      seniority := "senior",
      raw_record :=
        { title := some "Senior Data Scientist",
          candidate_required_location := some "Worldwide",
          salary := some "$80k - $120k",
          description_text := some "We use Python, SQL and AWS.",
          tags := some "python, aws, sql" } } := by decide

example :
    transform_records (fun _ => none) []
      [{ id := some "1", title := some "A" },
       { id := none, title := some "B" },
       { id := none, title := some "C" }] =
    [transformRow (fun _ => none) [] { id := some "1", title := some "A" },
     transformRow (fun _ => none) [] { id := none, title := some "B" }] := by decide

/-! ### General helper lemmas -/

theorem toLower_eq_self (c : Char) (h : ¬(65 ≤ c.toNat ∧ c.toNat ≤ 90)) : c.toLower = c := by
  unfold Char.toLower
  simp [h]

theorem toNat_ofNat_valid (n : Nat) (h : n < 0xd800) : (Char.ofNat n).toNat = n := by
  rw [Char.ofNat, dif_pos (Or.inl h)]
  simp [Char.ofNatAux, Char.toNat, UInt32.ofNat', UInt32.toNat]

theorem toLower_toLower (c : Char) : c.toLower.toLower = c.toLower := by
  by_cases h : 65 ≤ c.toNat ∧ c.toNat ≤ 90
  · have h1 : c.toLower = Char.ofNat (c.toNat + 32) := by
      unfold Char.toLower
      simp [h]
    rw [h1]
    have h2 : (Char.ofNat (c.toNat + 32)).toNat = c.toNat + 32 :=
      toNat_ofNat_valid _ (by omega)
    apply toLower_eq_self
    omega
  · rw [toLower_eq_self c h, toLower_eq_self c h]

theorem isDigit_toNat (c : Char) (h : c.isDigit = true) : 48 ≤ c.toNat ∧ c.toNat ≤ 57 := by
  simp [Char.isDigit] at h
  obtain ⟨h1, h2⟩ := h
  simp only [Char.toNat]
  rw [UInt32.le_def, BitVec.le_def] at h1 h2
  exact ⟨h1, h2⟩

theorem toLower_of_isDigit (c : Char) (h : c.isDigit = true) : c.toLower = c := by
  have := isDigit_toNat c h
  exact toLower_eq_self c (by omega)

theorem isWS_of_isDigit (c : Char) (h : c.isDigit = true) : isWS c = false := by
  have hb := isDigit_toNat c h
  by_contra hw
  have hw2 : isWS c = true := by
    revert hw
    cases isWS c <;> simp
  simp [isWS, Char.isWhitespace] at hw2
  rcases hw2 with ((h1 | h1) | h1) | h1 <;> subst h1 <;>
    simp [Char.toNat, UInt32.size] at hb

/-- `List.find?` returns the element at the first index whose prefix all
fails the predicate. -/
theorem find?_eq_of_first {α : Type} (p : α → Bool) :
    ∀ (l : List α) (i : Nat) (hi : i < l.length),
      p (l.get ⟨i, hi⟩) = true → (∀ x ∈ l.take i, p x = false) →
      l.find? p = some (l.get ⟨i, hi⟩) := by
  intro l
  induction l with
  | nil => intro i hi; simp at hi
  | cons a as ih =>
    intro i hi hp hb
    cases i with
    | zero =>
      simp only [List.get] at hp ⊢
      rw [List.find?_cons_of_pos _ hp]
    | succ n =>
      have ha : p a = false := hb a (by simp)
      rw [List.find?_cons_of_neg _ (by simp [ha])]
      simp only [List.get] at hp ⊢
      exact ih n (by simpa using hi) hp (fun x hx => hb x (by simp [hx]))

theorem regexSearchB_nil (pat : List Char) : regexSearchB pat [] = false := by
  cases pat with
  | nil => simp [regexSearchB, List.range, List.range.loop, matchesAt, prevWord, wordAt]
  | cons p ps => simp [regexSearchB, List.range, List.range.loop, matchesAt]

theorem extract_skills_empty_text (extra : List String) : extract_skills "" "" extra = [] := by
  have h : (COMMON_SKILLS ++ extra).filter (fun sk =>
      regexSearchB (lowerS sk).data (lowerS "").data ||
      regexSearchB (lowerS sk).data (lowerS "").data) = [] := by
    rw [List.filter_eq_nil_iff]
    intro sk _
    have h0 : (lowerS "").data = [] := rfl
    rw [h0, regexSearchB_nil]
    simp
  simp only [extract_skills]
  rw [h]
  rfl

theorem foldl_min_le_init (x : ℚ) (xs : List ℚ) : xs.foldl Min.min x ≤ x := by
  induction xs generalizing x with
  | nil => exact le_refl x
  | cons y ys ih => exact le_trans (ih (Min.min x y)) (min_le_left x y)

theorem init_le_foldl_max (x : ℚ) (xs : List ℚ) : x ≤ xs.foldl Max.max x := by
  induction xs generalizing x with
  | nil => exact le_refl x
  | cons y ys ih => exact le_trans (le_max_left x y) (ih (Max.max x y))

theorem listMin_le_listMax (l : List ℚ) (h : l ≠ []) : listMin l ≤ listMax l := by
  match l with
  | [] => exact absurd rfl h
  | x :: xs =>
    exact le_trans (foldl_min_le_init x xs) (init_le_foldl_max x xs)

example : extract_skills "We use Python, SQL and AWS." "" [] = ["aws", "python", "sql"] := by decide
example : extract_skills "javascript only" "" [] = ["javascript"] := by decide
example : extract_skills "" "python, aws, sql" [] = ["aws", "python", "sql"] := by decide
example : extract_skills "a" "" [""] = [""] := by decide
example : extract_skills "" "" ["x"] = [] := by decide
example : standardize_location (some "Worldwide") = "Remote" := by decide
example : standardize_location (some "  new   york, usa ") = "New York, Usa" := by decide
example : standardize_location none = "" := by decide
example : infer_seniority "Senior Data Scientist" = "senior" := by decide
example : infer_seniority "Junior Analyst" = "junior" := by decide
example : infer_seniority "Data Scientist" = "mid" := by decide
example : infer_seniority "" = "" := by decide
example : infer_seniority "International Sales Manager" = "intern" := by decide
example : clean_text (some "  a\r\nb\n\n\nc  ") = "a\nb\nc" := by decide
example : clean_text none = "" := by decide

/-! ### Claim theorems -/

theorem infer_seniority_of_ne (title : String) (h : title ≠ "") :
    infer_seniority title =
      (match SENIORITY_MAP.find? (fun kv => infixS kv.1 (lowerS title)) with
       | some kv => kv.2
       | none => "mid") := by
  simp [infer_seniority, h]

/-- C2: code-bug evidence for the currency detection.  A salary string
containing the real Euro glyph `€` (U+20AC) and none of `$`, `usd`, `eur`
is parsed with a null currency, while the same digits prefixed with the
mis-encoded three-character sequence actually present in the source are
detected as EUR: the code tests for the mojibake sequence, not for the
Euro sign the spec describes. -/
theorem c2_euro_glyph_not_detected :
    parse_salary (some "€50000") = ⟨some 50000, some 50000, none⟩ ∧
    infixS "€" "€50000" = true ∧
    infixS "$" "€50000" = false ∧
    decide ("usd".data <:+: sCleanOf "€50000") = false ∧
    decide ("eur".data <:+: sCleanOf "€50000") = false ∧
    parse_salary (some (String.mk (euroMoji.data ++ "50000".data))) =
      ⟨some 50000, some 50000, some "EUR"⟩ := by decide

/-- C4: `infer_seniority` returns `""` on an empty title; on a non-empty
title it returns the bucket of the first `SENIORITY_MAP` entry (in table
order) whose keyword occurs in the lowercased title, and `"mid"` when no
keyword occurs. -/
theorem c4_seniority_first_match (title : String) :
    (title = "" → infer_seniority title = "") ∧
    (∀ (i : Nat) (hi : i < SENIORITY_MAP.length), title ≠ "" →
      infixS (SENIORITY_MAP.get ⟨i, hi⟩).1 (lowerS title) = true →
      (∀ kv ∈ SENIORITY_MAP.take i, infixS kv.1 (lowerS title) = false) →
      infer_seniority title = (SENIORITY_MAP.get ⟨i, hi⟩).2) ∧
    ((∀ kv ∈ SENIORITY_MAP, infixS kv.1 (lowerS title) = false) → title ≠ "" →
      infer_seniority title = "mid") := by
  refine ⟨fun h => by simp [infer_seniority, h], ?_, ?_⟩
  · intro i hi hne hp hb
    rw [infer_seniority_of_ne title hne,
      find?_eq_of_first (fun kv => infixS kv.1 (lowerS title)) SENIORITY_MAP i hi hp hb]
  · intro hall hne
    rw [infer_seniority_of_ne title hne, List.find?_eq_none.mpr ?hn]
    intro kv hkv
    simp [hall kv hkv]

/-- Witness for C4: applied at "Senior Data Scientist" with table index 0,
all hypotheses checked concretely. -/
theorem c4_seniority_first_match_witness :
    infer_seniority "Senior Data Scientist" = "senior" := by
  have h := (c4_seniority_first_match "Senior Data Scientist").2.1 0 (by decide)
    (by decide) (by decide) (by decide)
  exact h

/-- C10: keyword matching in `infer_seniority` is plain substring matching
(not word-boundary matching): any title containing "international" and no
keyword of the senior or junior groups is classified "intern" — the
"intern" entry precedes "manager" in the table, so this holds even for
titles that also contain "manager". -/
theorem c10_substring_matching (title : String) :
    infixS "international" (lowerS title) = true →
    infixS "senior" (lowerS title) = false →
    infixS "sr." (lowerS title) = false →
    infixS "lead" (lowerS title) = false →
    infixS "principal" (lowerS title) = false →
    infixS "staff" (lowerS title) = false →
    infixS "junior" (lowerS title) = false →
    infixS "jr." (lowerS title) = false →
    infer_seniority title = "intern" := by
  intro h0 h1 h2 h3 h4 h5 h6 h7
  have hne : title ≠ "" := by
    intro he
    subst he
    exact absurd h0 (by decide)
  have hintern : infixS "intern" (lowerS title) = true := by
    have hpre : "intern".data <:+: "international".data := by decide
    have h0i : "international".data <:+: (lowerS title).data := of_decide_eq_true h0
    exact decide_eq_true (hpre.trans h0i)
  have hpref : ∀ kv ∈ SENIORITY_MAP.take 7, infixS kv.1 (lowerS title) = false := by
    intro kv hkv
    simp [SENIORITY_MAP, List.take] at hkv
    rcases hkv with h | h | h | h | h | h | h <;> subst h <;> assumption
  rw [infer_seniority_of_ne title hne,
    find?_eq_of_first (fun kv => infixS kv.1 (lowerS title)) SENIORITY_MAP 7 (by decide)
      hintern hpref]
  rfl

/-- Witness for C10: "International Sales Manager" contains "international"
and "manager" but no senior/junior keyword, and is classified "intern". -/
theorem c10_substring_matching_witness :
    infer_seniority "International Sales Manager" = "intern" :=
  c10_substring_matching "International Sales Manager" (by decide) (by decide)
    (by decide) (by decide) (by decide) (by decide) (by decide) (by decide)

/-- C5: the per-record transformation is total: exactly one canonical row
per input record (for every date parser and extra-skill list), and a raw
record with every field absent still yields the default canonical row
(empty strings, nulls, `false` remote flag). -/
theorem c5_transform_total (dp : String → Option String) (extra : List String)
    (records : List RawRecord) :
    (transformRows dp extra records).length = records.length ∧
    transformRow dp extra {} =
      { id := none, url := none, title := "", normalized_title := "",
        company_name := "", category := none, job_type := none,
        publication_date := none, location := "", remote := false,
        salary_min := none, salary_max := none, salary_currency := none,
        description := "", tags := "", skills := "", seniority := "",
        raw_record := {} } := by
  refine ⟨by simp [transformRows], ?_⟩
  have hsk := extract_skills_empty_text extra
  have h1 : transformRow dp extra {} =
      { id := none, url := none, title := "", normalized_title := "",
        company_name := "", category := none, job_type := none,
        publication_date := none, location := "", remote := false,
        salary_min := none, salary_max := none, salary_currency := none,
        description := "", tags := "",
        skills := ", ".intercalate (extract_skills "" "" extra),
        seniority := "", raw_record := {} } := rfl
  rw [h1, hsk]
  rfl

/-- C6: whenever `parse_salary` reports both a min and a max, the min is
at most the max; consequently the same holds for the salary fields of
every canonical record. -/
theorem c6_salary_min_le_max :
    (∀ (s : Option String) (a b : ℚ),
      (parse_salary s).min = some a → (parse_salary s).max = some b → a ≤ b) ∧
    (∀ (dp : String → Option String) (extra : List String) (r : RawRecord) (a b : ℚ),
      (transformRow dp extra r).salary_min = some a →
      (transformRow dp extra r).salary_max = some b → a ≤ b) := by
  have hmain : ∀ (s : Option String) (a b : ℚ),
      (parse_salary s).min = some a → (parse_salary s).max = some b → a ≤ b := by
    intro s a b h1 h2
    match s with
    | none => simp [parse_salary] at h1
    | some str =>
      by_cases hg : stripChars str.data = []
      · simp [parse_salary, hg] at h1
      · rcases hl : salaryCands str with _ | ⟨v, tl⟩
        · simp [parse_salary, hg, hl] at h1
        · rcases tl with _ | ⟨v2, rest⟩
          · simp [parse_salary, hg, hl] at h1 h2
            rw [← h1, ← h2]
          · simp [parse_salary, hg, hl] at h1 h2
            rw [← h1, ← h2]
            exact listMin_le_listMax (v :: v2 :: rest) (by simp)
  refine ⟨hmain, ?_⟩
  intro dp extra r a b h1 h2
  have e1 : (transformRow dp extra r).salary_min = (parse_salary r.salary).min := rfl
  have e2 : (transformRow dp extra r).salary_max = (parse_salary r.salary).max := rfl
  exact hmain r.salary a b (e1 ▸ h1) (e2 ▸ h2)

/-- Witness for C6: at "100k - 50k" both bounds are present and ordered. -/
theorem c6_salary_min_le_max_witness :
    (parse_salary (some "100k - 50k")).min = some 50000 ∧
    (parse_salary (some "100k - 50k")).max = some 100000 ∧
    (50000 : ℚ) ≤ 100000 :=
  ⟨by decide, by decide,
    c6_salary_min_le_max.1 (some "100k - 50k") 50000 100000 (by decide) (by decide)⟩

/-! ### Salary-scanner lemmas (for C3) -/

theorem takeDigits_snd_length (l : List Char) : (takeDigits l).2.length ≤ l.length := by
  induction l with
  | nil => simp [takeDigits]
  | cons c cs ih =>
    simp only [takeDigits]
    split
    · simpa using Nat.le_succ_of_le ih
    · simp

theorem takeDigits_cons_digit (c : Char) (cs : List Char) (h : c.isDigit = true) :
    takeDigits (c :: cs) = (c :: (takeDigits cs).1, (takeDigits cs).2) := by
  simp [takeDigits, h]

theorem fracSplit_snd_length (l : List Char) : (fracSplit l).2.length ≤ l.length := by
  unfold fracSplit
  split
  · rename_i d rest
    split
    · exact le_trans (takeDigits_snd_length _) (by simp)
    · simp
  · simp

theorem takeDigits_append (ds rest : List Char) (h1 : ∀ c ∈ ds, c.isDigit = true)
    (h2 : ∀ c, rest.head? = some c → c.isDigit = false) :
    takeDigits (ds ++ rest) = (ds, rest) := by
  induction ds with
  | nil =>
    simp only [List.nil_append]
    cases rest with
    | nil => rfl
    | cons c r =>
      have hc := h2 c rfl
      simp [takeDigits, hc]
  | cons d ds ih =>
    have hd : d.isDigit = true := h1 d (by simp)
    rw [List.cons_append, takeDigits_cons_digit d _ hd,
      ih (fun c hc => h1 c (by simp [hc]))]

theorem fracSplit_of_head_ne (l : List Char) (h : l.head? ≠ some '.') :
    fracSplit l = ([], l) := by
  unfold fracSplit
  split
  · rename_i d rest
    exact absurd rfl h
  · rfl

theorem scanNumsF_nil (f : Nat) : scanNumsF f [] = [] := by
  cases f <;> rfl

theorem scanNumsF_fuel (f : Nat) : ∀ (l : List Char), l.length ≤ f → scanNumsF f l = scanNums l := by
  induction f using Nat.strong_induction_on with
  | _ f ih =>
    intro l hl
    cases l with
    | nil =>
      rw [scanNumsF_nil]
      rfl
    | cons c cs =>
      cases f with
      | zero => simp at hl
      | succ f =>
      have hcs : cs.length ≤ f := by simpa using hl
      by_cases hc : c.isDigit = true
      · have ht2 : (takeDigits (c :: cs)).2.length ≤ cs.length := by
          rw [takeDigits_cons_digit c cs hc]
          exact takeDigits_snd_length cs
        have hf2 : (fracSplit (takeDigits (c :: cs)).2).2.length ≤ cs.length :=
          le_trans (fracSplit_snd_length _) ht2
        show scanNumsF (f + 1) (c :: cs) = scanNumsF (c :: cs).length (c :: cs)
        simp only [scanNumsF, hc, if_true, List.length_cons]
        by_cases hk : (fracSplit (takeDigits (c :: cs)).2).2.head? = some 'k'
        · rw [if_pos hk, if_pos hk]
          have htl : (fracSplit (takeDigits (c :: cs)).2).2.tail.length ≤ cs.length :=
            le_trans (by simp [List.length_tail]) hf2
          rw [ih f (by omega) _ (le_trans htl hcs),
            ih cs.length (by omega) _ htl]
        · rw [if_neg hk, if_neg hk]
          rw [ih f (by omega) _ (le_trans hf2 hcs),
            ih cs.length (by omega) _ hf2]
      · have hc2 : c.isDigit = false := by
          revert hc
          cases c.isDigit <;> simp
        show scanNumsF (f + 1) (c :: cs) = scanNumsF (c :: cs).length (c :: cs)
        simp only [scanNumsF, hc2, if_false, List.length_cons, Bool.false_eq_true]
        rw [ih f (by omega) _ hcs, ih cs.length (by omega) _ (le_refl _)]

theorem scanNums_nil : scanNums [] = [] := rfl

theorem scanNums_cons_nondigit (c : Char) (l : List Char) (h : c.isDigit = false) :
    scanNums (c :: l) = scanNums l := by
  show scanNumsF (l.length + 1) (c :: l) = scanNums l
  simp only [scanNumsF, h, Bool.false_eq_true, if_false]
  exact scanNumsF_fuel l.length l (le_refl _)

theorem scanNums_token (ds r : List Char) (h1 : ds ≠ []) (h2 : ∀ c ∈ ds, c.isDigit = true) :
    scanNums (ds ++ 'k' :: r) = tokenVal ds [] 1000 :: scanNums r := by
  match ds, h1 with
  | d :: ds2, _ =>
    have hd : d.isDigit = true := h2 d (by simp)
    have htake : takeDigits ((d :: ds2) ++ 'k' :: r) = (d :: ds2, 'k' :: r) :=
      takeDigits_append (d :: ds2) ('k' :: r) h2 (by
        intro c hc
        simp at hc
        subst hc
        decide)
    have hfrac : fracSplit ('k' :: r) = ([], 'k' :: r) :=
      fracSplit_of_head_ne _ (by simp)
    show scanNumsF ((d :: ds2) ++ 'k' :: r).length ((d :: ds2) ++ 'k' :: r) = _
    have hlen : ((d :: ds2) ++ 'k' :: r).length = (ds2 ++ 'k' :: r).length + 1 := by
      simp
    rw [hlen, List.cons_append]
    simp only [scanNumsF, hd, if_true, ← List.cons_append, htake, hfrac]
    rw [if_pos (by simp)]
    simp only [List.tail_cons]
    congr 1
    refine scanNumsF_fuel _ r ?_
    simp [List.length_append]
    omega

theorem scanNumsF_ne_nil_digit (f : Nat) :
    ∀ l : List Char, scanNumsF f l ≠ [] → ∃ c ∈ l, c.isDigit = true := by
  induction f with
  | zero =>
    intro l h
    cases l with
    | nil => exact absurd (scanNumsF_nil 0) h
    | cons c cs => exact absurd rfl h
  | succ f ih =>
    intro l h
    cases l with
    | nil => exact absurd (scanNumsF_nil (f + 1)) h
    | cons c cs =>
      by_cases hc : c.isDigit = true
      · exact ⟨c, by simp, hc⟩
      · have hc2 : c.isDigit = false := by
          revert hc
          cases c.isDigit <;> simp
        have hrec : scanNumsF f cs ≠ [] := by
          intro he
          apply h
          simp only [scanNumsF, hc2, Bool.false_eq_true, if_false]
          exact he
        obtain ⟨d, hd1, hd2⟩ := ih cs hrec
        exact ⟨d, by simp [hd1], hd2⟩

theorem isDigit_of_toLower_isDigit (c : Char) (h : (Char.toLower c).isDigit = true) :
    c.isDigit = true := by
  by_cases hu : 65 ≤ c.toNat ∧ c.toNat ≤ 90
  · have h1 : c.toLower = Char.ofNat (c.toNat + 32) := by
      unfold Char.toLower
      simp [hu]
    have h2 : (Char.ofNat (c.toNat + 32)).toNat = c.toNat + 32 :=
      toNat_ofNat_valid _ (by omega)
    rw [h1] at h
    have hb := isDigit_toNat _ h
    omega
  · rwa [toLower_eq_self c hu] at h

theorem mem_dropWhile_of_not (p : Char → Bool) (l : List Char) (c : Char)
    (hc : c ∈ l) (h : p c = false) : c ∈ l.dropWhile p := by
  induction l with
  | nil => simp at hc
  | cons a as ih =>
    by_cases ha : p a = true
    · rw [List.dropWhile_cons_of_pos ha]
      rcases List.mem_cons.mp hc with h1 | h1
      · subst h1
        rw [ha] at h
        simp at h
      · exact ih h1
    · have ha2 : p a = false := by
        revert ha
        cases p a <;> simp
      rw [List.dropWhile_cons_of_neg (by simp [ha2])]
      exact hc

theorem stripChars_ne_nil (l : List Char) (c : Char) (hc : c ∈ l) (hw : isWS c = false) :
    stripChars l ≠ [] := by
  intro he
  have h1 : c ∈ l.dropWhile isWS := mem_dropWhile_of_not isWS l c hc hw
  have h2 : c ∈ (l.dropWhile isWS).reverse := by simpa using h1
  have h3 : c ∈ (l.dropWhile isWS).reverse.dropWhile isWS :=
    mem_dropWhile_of_not isWS _ c h2 hw
  have h4 : (l.dropWhile isWS).reverse.dropWhile isWS = [] := by
    have : ((l.dropWhile isWS).reverse.dropWhile isWS).reverse = [] := he
    simpa using this
  rw [h4] at h3
  simp at h3

theorem salaryCands_guard (str : String) (h : salaryCands str ≠ []) :
    stripChars str.data ≠ [] := by
  obtain ⟨c, hc1, hc2⟩ := scanNumsF_ne_nil_digit (sCleanOf str).length (sCleanOf str) h
  simp only [sCleanOf, List.mem_map, List.mem_filter] at hc1
  obtain ⟨c0, ⟨hc0mem, _⟩, rfl⟩ := hc1
  have hd0 : c0.isDigit = true := isDigit_of_toLower_isDigit c0 hc2
  exact stripChars_ne_nil str.data c0 hc0mem (isWS_of_isDigit c0 hd0)

theorem foldl_min_mem (x : ℚ) (xs : List ℚ) :
    xs.foldl Min.min x = x ∨ xs.foldl Min.min x ∈ xs := by
  induction xs generalizing x with
  | nil => exact Or.inl rfl
  | cons y ys ih =>
    rcases ih (Min.min x y) with h | h
    · rcases min_choice x y with hm | hm
      · exact Or.inl (by rw [List.foldl_cons, h, hm])
      · refine Or.inr ?_
        rw [List.foldl_cons, h, hm]
        simp
    · exact Or.inr (by simp [List.foldl_cons]; right; exact h)

theorem foldl_min_le_mem (x : ℚ) (xs : List ℚ) : ∀ v ∈ xs, xs.foldl Min.min x ≤ v := by
  induction xs generalizing x with
  | nil => intro v hv; simp at hv
  | cons y ys ih =>
    intro v hv
    rcases List.mem_cons.mp hv with h | h
    · subst h
      exact le_trans (foldl_min_le_init (Min.min x v) ys) (min_le_right x v)
    · exact ih (Min.min x y) v h

theorem foldl_max_mem (x : ℚ) (xs : List ℚ) :
    xs.foldl Max.max x = x ∨ xs.foldl Max.max x ∈ xs := by
  induction xs generalizing x with
  | nil => exact Or.inl rfl
  | cons y ys ih =>
    rcases ih (Max.max x y) with h | h
    · rcases max_choice x y with hm | hm
      · exact Or.inl (by rw [List.foldl_cons, h, hm])
      · refine Or.inr ?_
        rw [List.foldl_cons, h, hm]
        simp
    · exact Or.inr (by simp [List.foldl_cons]; right; exact h)

theorem foldl_max_ge_mem (x : ℚ) (xs : List ℚ) : ∀ v ∈ xs, v ≤ xs.foldl Max.max x := by
  induction xs generalizing x with
  | nil => intro v hv; simp at hv
  | cons y ys ih =>
    intro v hv
    rcases List.mem_cons.mp hv with h | h
    · subst h
      exact le_trans (le_max_right x v) (init_le_foldl_max (Max.max x v) ys)
    · exact ih (Max.max x y) v h

theorem listMin_mem (l : List ℚ) (h : l ≠ []) : listMin l ∈ l := by
  match l with
  | x :: xs =>
    rcases foldl_min_mem x xs with h1 | h1
    · simp [listMin, h1]
    · simp [listMin]
      right
      exact h1

theorem listMax_mem (l : List ℚ) (h : l ≠ []) : listMax l ∈ l := by
  match l with
  | x :: xs =>
    rcases foldl_max_mem x xs with h1 | h1
    · simp [listMax, h1]
    · simp [listMax]
      right
      exact h1

theorem listMin_le (l : List ℚ) : ∀ v ∈ l, listMin l ≤ v := by
  match l with
  | [] => intro v hv; simp at hv
  | x :: xs =>
    intro v hv
    rcases List.mem_cons.mp hv with h | h
    · subst h
      exact foldl_min_le_init v xs
    · exact foldl_min_le_mem x xs v h

theorem le_listMax (l : List ℚ) : ∀ v ∈ l, v ≤ listMax l := by
  match l with
  | [] => intro v hv; simp at hv
  | x :: xs =>
    intro v hv
    rcases List.mem_cons.mp hv with h | h
    · subst h
      exact init_le_foldl_max v xs
    · exact foldl_max_ge_mem x xs v h

theorem tokenVal_nil (ds : List Char) (scale : Nat) :
    tokenVal ds [] scale = ((digitsVal ds * scale : Nat) : ℚ) := by
  have hd : digitsVal ([] : List Char) = 0 := rfl
  simp [tokenVal, hd]

/-- C3: order-independent salary range extraction.  (i) For digit strings
`da`, `db`, parsing "`da`k - `db`k" yields min = min(a,b)*1000 and
max = max(a,b)*1000 where `a`, `b` are the denoted numbers, whichever is
larger; (ii) with two or more candidate values, min is the smallest
candidate and max the largest; (iii) with exactly one candidate,
min = max = that candidate. -/
theorem c3_salary_min_max :
    (∀ da db : List Char, da ≠ [] → db ≠ [] →
      (∀ c ∈ da, c.isDigit = true) → (∀ c ∈ db, c.isDigit = true) →
      parse_salary (some ⟨da ++ 'k' :: ' ' :: '-' :: ' ' :: (db ++ ['k'])⟩) =
        ⟨some (Min.min ((digitsVal da : ℚ)) ((digitsVal db : ℚ)) * 1000),
         some (Max.max ((digitsVal da : ℚ)) ((digitsVal db : ℚ)) * 1000), none⟩) ∧
    (∀ str : String, 2 ≤ (salaryCands str).length →
      (parse_salary (some str)).min = some (listMin (salaryCands str)) ∧
      (parse_salary (some str)).max = some (listMax (salaryCands str)) ∧
      listMin (salaryCands str) ∈ salaryCands str ∧
      listMax (salaryCands str) ∈ salaryCands str ∧
      (∀ v ∈ salaryCands str, listMin (salaryCands str) ≤ v ∧ v ≤ listMax (salaryCands str))) ∧
    (∀ (str : String) (v : ℚ), salaryCands str = [v] →
      (parse_salary (some str)).min = some v ∧ (parse_salary (some str)).max = some v) := by
  refine ⟨?_, ?_, ?_⟩
  · intro da db h1 h2 hd1 hd2
    have hmem : ∀ c ∈ da ++ 'k' :: ' ' :: '-' :: ' ' :: (db ++ ['k']),
        c.isDigit = true ∨ c = 'k' ∨ c = ' ' ∨ c = '-' := by
      intro c hc
      simp only [List.mem_append, List.mem_cons, List.mem_singleton,
        List.not_mem_nil, or_false] at hc
      rcases hc with h | h | h | h | h | h | h
      · exact Or.inl (hd1 c h)
      · exact Or.inr (Or.inl h)
      · exact Or.inr (Or.inr (Or.inl h))
      · exact Or.inr (Or.inr (Or.inr h))
      · exact Or.inr (Or.inr (Or.inl h))
      · exact Or.inl (hd2 c h)
      · exact Or.inr (Or.inl h)
    have hfix : ∀ c ∈ da ++ 'k' :: ' ' :: '-' :: ' ' :: (db ++ ['k']),
        c ≠ ',' ∧ Char.toLower c = c := by
      intro c hc
      rcases hmem c hc with h | h | h | h
      · constructor
        · intro he
          subst he
          exact absurd h (by decide)
        · exact toLower_of_isDigit c h
      all_goals (subst h; exact ⟨by decide, by decide⟩)
    have hclean : sCleanOf ⟨da ++ 'k' :: ' ' :: '-' :: ' ' :: (db ++ ['k'])⟩ =
        da ++ 'k' :: ' ' :: '-' :: ' ' :: (db ++ ['k']) := by
      unfold sCleanOf
      have hdata : (String.mk (da ++ 'k' :: ' ' :: '-' :: ' ' :: (db ++ ['k']))).data =
          da ++ 'k' :: ' ' :: '-' :: ' ' :: (db ++ ['k']) := rfl
      rw [hdata]
      rw [List.filter_eq_self.mpr (fun c hc => by simp [(hfix c hc).1])]
      calc (da ++ 'k' :: ' ' :: '-' :: ' ' :: (db ++ ['k'])).map Char.toLower
          = (da ++ 'k' :: ' ' :: '-' :: ' ' :: (db ++ ['k'])).map id := by
            apply List.map_congr_left
            intro c hc
            exact (hfix c hc).2
        _ = da ++ 'k' :: ' ' :: '-' :: ' ' :: (db ++ ['k']) := List.map_id _
    obtain ⟨d0, da2, rfl⟩ : ∃ d0 da2, da = d0 :: da2 := by
      cases da with
      | nil => exact absurd rfl h1
      | cons d0 da2 => exact ⟨d0, da2, rfl⟩
    have hguard : stripChars (String.mk ((d0 :: da2) ++ 'k' :: ' ' :: '-' :: ' ' :: (db ++ ['k']))).data ≠ [] := by
      refine stripChars_ne_nil _ d0 (by simp) ?_
      exact isWS_of_isDigit d0 (hd1 d0 (by simp))
    have hcands : salaryCands ⟨(d0 :: da2) ++ 'k' :: ' ' :: '-' :: ' ' :: (db ++ ['k'])⟩ =
        [tokenVal (d0 :: da2) [] 1000, tokenVal db [] 1000] := by
      unfold salaryCands
      rw [hclean]
      rw [scanNums_token (d0 :: da2) _ (by simp) hd1]
      rw [scanNums_cons_nondigit ' ' _ (by decide),
        scanNums_cons_nondigit '-' _ (by decide),
        scanNums_cons_nondigit ' ' _ (by decide)]
      have he : db ++ ['k'] = db ++ 'k' :: [] := rfl
      rw [he, scanNums_token db [] h2 hd2, scanNums_nil]
    have hcur : salaryCurrency ⟨(d0 :: da2) ++ 'k' :: ' ' :: '-' :: ' ' :: (db ++ ['k'])⟩ = none := by
      have hnin : ∀ x : Char, x.isDigit = false → x ≠ 'k' → x ≠ ' ' → x ≠ '-' →
          x ∉ (d0 :: da2) ++ 'k' :: ' ' :: '-' :: ' ' :: (db ++ ['k']) := by
        intro x hx1 hx2 hx3 hx4 hmemx
        rcases hmem x hmemx with h | h | h | h
        · rw [hx1] at h
          simp at h
        · exact hx2 h
        · exact hx3 h
        · exact hx4 h
      have hd1f : infixS "$" ⟨(d0 :: da2) ++ 'k' :: ' ' :: '-' :: ' ' :: (db ++ ['k'])⟩ = false := by
        apply decide_eq_false
        intro hinf
        exact hnin '$' (by decide) (by decide) (by decide) (by decide) (hinf.subset (by decide))
      have hd2f : decide ("usd".data <:+: (d0 :: da2) ++ 'k' :: ' ' :: '-' :: ' ' :: (db ++ ['k'])) = false := by
        apply decide_eq_false
        intro hinf
        exact hnin 'u' (by decide) (by decide) (by decide) (by decide) (hinf.subset (by simp))
      have hd3f : infixS euroMoji ⟨(d0 :: da2) ++ 'k' :: ' ' :: '-' :: ' ' :: (db ++ ['k'])⟩ = false := by
        apply decide_eq_false
        intro hinf
        refine absurd (hinf.subset ?_) (hnin 'â' (by decide) (by decide) (by decide) (by decide))
        decide
      have hd4f : decide ("eur".data <:+: (d0 :: da2) ++ 'k' :: ' ' :: '-' :: ' ' :: (db ++ ['k'])) = false := by
        apply decide_eq_false
        intro hinf
        exact hnin 'e' (by decide) (by decide) (by decide) (by decide) (hinf.subset (by simp))
      simp only [salaryCurrency, hclean, hd1f, hd2f, hd3f, hd4f, Bool.or_self,
        Bool.false_eq_true, if_false]
    have hps : parse_salary (some ⟨(d0 :: da2) ++ 'k' :: ' ' :: '-' :: ' ' :: (db ++ ['k'])⟩) =
        ⟨some (listMin [tokenVal (d0 :: da2) [] 1000, tokenVal db [] 1000]),
         some (listMax [tokenVal (d0 :: da2) [] 1000, tokenVal db [] 1000]), none⟩ := by
      simp only [parse_salary]
      rw [if_neg hguard, hcands, hcur]
    rw [hps]
    have hmin : listMin [tokenVal (d0 :: da2) [] 1000, tokenVal db [] 1000] =
        Min.min ((digitsVal (d0 :: da2) : ℚ)) ((digitsVal db : ℚ)) * 1000 := by
      simp only [listMin, List.foldl_cons, List.foldl_nil, tokenVal_nil]
      push_cast
      rcases le_total ((digitsVal (d0 :: da2) : ℚ)) ((digitsVal db : ℚ)) with h | h
      · rw [min_eq_left (by exact mul_le_mul_of_nonneg_right h (by norm_num)),
          min_eq_left h]
      · rw [min_eq_right (by exact mul_le_mul_of_nonneg_right h (by norm_num)),
          min_eq_right h]
    have hmax : listMax [tokenVal (d0 :: da2) [] 1000, tokenVal db [] 1000] =
        Max.max ((digitsVal (d0 :: da2) : ℚ)) ((digitsVal db : ℚ)) * 1000 := by
      simp only [listMax, List.foldl_cons, List.foldl_nil, tokenVal_nil]
      push_cast
      rcases le_total ((digitsVal (d0 :: da2) : ℚ)) ((digitsVal db : ℚ)) with h | h
      · rw [max_eq_right (by exact mul_le_mul_of_nonneg_right h (by norm_num)),
          max_eq_right h]
      · rw [max_eq_left (by exact mul_le_mul_of_nonneg_right h (by norm_num)),
          max_eq_left h]
    rw [hmin, hmax]
  · intro str hlen
    have hne : salaryCands str ≠ [] := by
      intro h
      rw [h] at hlen
      simp at hlen
    have hguard := salaryCands_guard str hne
    rcases hl : salaryCands str with _ | ⟨v, tl⟩
    · exact absurd hl hne
    · rcases tl with _ | ⟨v2, rest⟩
      · rw [hl] at hlen
        simp at hlen
      · have hps : parse_salary (some str) =
            ⟨some (listMin (v :: v2 :: rest)), some (listMax (v :: v2 :: rest)),
              salaryCurrency str⟩ := by
          simp only [parse_salary]
          rw [if_neg hguard, hl]
        refine ⟨by rw [hps], by rw [hps], listMin_mem _ (by simp), listMax_mem _ (by simp), ?_⟩
        intro w hw
        exact ⟨listMin_le _ w hw, le_listMax _ w hw⟩
  · intro str v hl
    have hne : salaryCands str ≠ [] := by
      rw [hl]
      simp
    have hguard := salaryCands_guard str hne
    have hps : parse_salary (some str) = ⟨some v, some v, salaryCurrency str⟩ := by
      simp only [parse_salary]
      rw [if_neg hguard, hl]
    exact ⟨by rw [hps], by rw [hps]⟩

/-- Witness for C3: "120k - 80k" (larger value first) yields
min = 80000, max = 120000. -/
theorem c3_salary_min_max_witness :
    parse_salary (some "120k - 80k") = ⟨some 80000, some 120000, none⟩ := by
  have h := c3_salary_min_max.1 ['1', '2', '0'] ['8', '0'] (by decide) (by decide)
    (by decide) (by decide)
  have e1 : digitsVal ['1', '2', '0'] = 120 := by decide
  have e2 : digitsVal ['8', '0'] = 80 := by decide
  rw [e1, e2] at h
  have hs : ("120k - 80k" : String) =
      ⟨['1', '2', '0'] ++ 'k' :: ' ' :: '-' :: ' ' :: (['8', '0'] ++ ['k'])⟩ := rfl
  rw [hs, h]
  norm_num

/-! ### Sortedness lemmas (for C7) -/

theorem lexLe_total : ∀ a b : List Char, lexLe a b = true ∨ lexLe b a = true := by
  intro a
  induction a with
  | nil => intro b; exact Or.inl rfl
  | cons x xs ih =>
    intro b
    cases b with
    | nil => exact Or.inr rfl
    | cons y ys =>
      by_cases h1 : x.toNat < y.toNat
      · left
        simp [lexLe, h1]
      · by_cases h2 : y.toNat < x.toNat
        · right
          simp [lexLe, h2]
        · rcases ih ys with h | h
          · left
            simp [lexLe, h1, h2, h]
          · right
            simp [lexLe, h1, h2, h]

theorem lexLe_cases (x y : Char) (xs ys : List Char) (h : lexLe (x :: xs) (y :: ys) = true) :
    x.toNat < y.toNat ∨ (x.toNat = y.toNat ∧ lexLe xs ys = true) := by
  by_cases h1 : x.toNat < y.toNat
  · exact Or.inl h1
  · by_cases h2 : y.toNat < x.toNat
    · simp [lexLe, h1, h2] at h
    · refine Or.inr ⟨by omega, ?_⟩
      simpa [lexLe, h1, h2] using h

theorem lexLe_trans : ∀ a b c : List Char,
    lexLe a b = true → lexLe b c = true → lexLe a c = true := by
  intro a
  induction a with
  | nil => intro b c _ _; rfl
  | cons x xs ih =>
    intro b c hab hbc
    cases b with
    | nil => simp [lexLe] at hab
    | cons y ys =>
      cases c with
      | nil => simp [lexLe] at hbc
      | cons z zs =>
        rcases lexLe_cases x y xs ys hab with h1 | ⟨h1, h1r⟩ <;>
          rcases lexLe_cases y z ys zs hbc with h2 | ⟨h2, h2r⟩
        · simp [lexLe, show x.toNat < z.toNat by omega]
        · simp [lexLe, show x.toNat < z.toNat by omega]
        · simp [lexLe, show x.toNat < z.toNat by omega]
        · have hxz : ¬ x.toNat < z.toNat := by omega
          have hzx : ¬ z.toNat < x.toNat := by omega
          simp [lexLe, hxz, hzx, ih ys zs h1r h2r]

instance : IsTotal String (fun a b => strLe a b = true) :=
  ⟨fun a b => lexLe_total a.data b.data⟩

instance : IsTrans String (fun a b => strLe a b = true) :=
  ⟨fun a b c => lexLe_trans a.data b.data c.data⟩

theorem sortedSet_sorted (l : List String) :
    (sortedSet l).Sorted (fun a b => strLe a b = true) :=
  List.sorted_insertionSort _ _

theorem sortedSet_perm (l : List String) : (sortedSet l).Perm l.dedup :=
  List.perm_insertionSort _ _

theorem sortedSet_nodup (l : List String) : (sortedSet l).Nodup :=
  ((sortedSet_perm l).nodup_iff).mpr (List.nodup_dedup l)

theorem mem_sortedSet (x : String) (l : List String) : x ∈ sortedSet l ↔ x ∈ l := by
  rw [(sortedSet_perm l).mem_iff, List.mem_dedup]

theorem lowerS_lowerS (s : String) : lowerS (lowerS s) = lowerS s := by
  apply String.ext
  show (s.data.map Char.toLower).map Char.toLower = s.data.map Char.toLower
  rw [List.map_map]
  exact List.map_congr_left (fun c _ => toLower_toLower c)

/-- C7 (amended): the skill list produced by `extract_skills` is sorted in
ascending (code-point) order, contains no duplicates, every entry is
lowercased, and — provided no extra skill name is the empty string, as the
CLI loader guarantees by dropping blank lines — no entry is empty. -/
theorem c7_skills_sorted_nodup (text tags : String) (extra : List String)
    (hx : "" ∉ extra) :
    (extract_skills text tags extra).Sorted (fun a b => strLe a b = true) ∧
    (extract_skills text tags extra).Nodup ∧
    (∀ x ∈ extract_skills text tags extra, lowerS x = x ∧ x ≠ "") := by
  simp only [extract_skills]
  refine ⟨sortedSet_sorted _, sortedSet_nodup _, ?_⟩
  intro x hx2
  rw [mem_sortedSet] at hx2
  obtain ⟨sk, hsk, rfl⟩ := List.mem_map.mp hx2
  refine ⟨lowerS_lowerS sk, ?_⟩
  intro he
  have hskmem : sk ∈ COMMON_SKILLS ++ extra := (List.mem_filter.mp hsk).1
  have hdata : sk.data.map Char.toLower = [] := by
    have h0 : (lowerS sk).data = ("" : String).data := by rw [he]
    exact h0
  have hnil : sk.data = [] := List.map_eq_nil_iff.mp hdata
  have hsknil : sk = "" := String.ext hnil
  rcases List.mem_append.mp hskmem with h | h
  · rw [hsknil] at h
    exact absurd h (by decide)
  · rw [hsknil] at h
    exact hx h

/-- Counterexample to C7 as stated: an empty extra skill name matches any
text with a word boundary (the regex degenerates to a bare boundary test),
so the result contains an empty entry. -/
theorem c7_counterexample : extract_skills "a" "" [""] = [""] := by decide

/-- Witness for C7 at a concrete description and empty extra list. -/
theorem c7_skills_sorted_nodup_witness :
    (extract_skills "We use Python, SQL and AWS." "" []).Sorted (fun a b => strLe a b = true) ∧
    (extract_skills "We use Python, SQL and AWS." "" []).Nodup ∧
    (∀ x ∈ extract_skills "We use Python, SQL and AWS." "" [], lowerS x = x ∧ x ≠ "") :=
  c7_skills_sorted_nodup "We use Python, SQL and AWS." "" [] (by decide)

/-! ### Deduplication lemmas (for C1 and C8) -/

theorem dedupSeen_sublist {K : Type} [DecidableEq K] (key : CanonicalRecord → K) :
    ∀ (l : List CanonicalRecord) (seen : List K), (dedupSeen key l seen).Sublist l := by
  intro l
  induction l with
  | nil => intro seen; simp [dedupSeen]
  | cons r rs ih =>
    intro seen
    by_cases h : key r ∈ seen
    · rw [dedupSeen, if_pos h]
      exact (ih seen).trans (List.sublist_cons_self r rs)
    · rw [dedupSeen, if_neg h]
      exact (ih (key r :: seen)).cons₂ r

theorem dedupSeen_key_not_seen {K : Type} [DecidableEq K] (key : CanonicalRecord → K) :
    ∀ (l : List CanonicalRecord) (seen : List K) (r : CanonicalRecord),
      r ∈ dedupSeen key l seen → key r ∉ seen := by
  intro l
  induction l with
  | nil => intro seen r hr; simp [dedupSeen] at hr
  | cons a as ih =>
    intro seen r hr
    by_cases h : key a ∈ seen
    · rw [dedupSeen, if_pos h] at hr
      exact ih seen r hr
    · rw [dedupSeen, if_neg h] at hr
      rcases List.mem_cons.mp hr with h1 | h1
      · subst h1
        exact h
      · have := ih (key a :: seen) r h1
        intro hc
        exact this (List.mem_cons_of_mem _ hc)

theorem dedupSeen_pairwise {K : Type} [DecidableEq K] (key : CanonicalRecord → K) :
    ∀ (l : List CanonicalRecord) (seen : List K),
      (dedupSeen key l seen).Pairwise (fun a b => key a ≠ key b) := by
  intro l
  induction l with
  | nil => intro seen; simp [dedupSeen]
  | cons a as ih =>
    intro seen
    by_cases h : key a ∈ seen
    · rw [dedupSeen, if_pos h]
      exact ih seen
    · rw [dedupSeen, if_neg h]
      refine List.Pairwise.cons ?_ (ih (key a :: seen))
      intro b hb
      have := dedupSeen_key_not_seen key as (key a :: seen) b hb
      intro hc
      exact this (by rw [← hc]; exact List.mem_cons_self _ _)

theorem dedupSeen_eq_self {K : Type} [DecidableEq K] (key : CanonicalRecord → K) :
    ∀ (l : List CanonicalRecord) (seen : List K),
      l.Pairwise (fun a b => key a ≠ key b) → (∀ r ∈ l, key r ∉ seen) →
      dedupSeen key l seen = l := by
  intro l
  induction l with
  | nil => intro seen _ _; rfl
  | cons a as ih =>
    intro seen hp hs
    rw [dedupSeen, if_neg (hs a (List.mem_cons_self _ _))]
    congr 1
    refine ih (key a :: seen) (List.Pairwise.sublist (List.sublist_cons_self a as) hp) ?_
    intro r hr
    rw [List.mem_cons]
    push_neg
    constructor
    · intro hc
      exact (List.pairwise_cons.mp hp).1 r hr hc.symm
    · exact hs r (List.mem_cons_of_mem _ hr)

theorem dedupBy_idem {K : Type} [DecidableEq K] (key : CanonicalRecord → K)
    (l : List CanonicalRecord) : dedupBy key (dedupBy key l) = dedupBy key l :=
  dedupSeen_eq_self key _ [] (dedupSeen_pairwise key l []) (by simp)

theorem dedupSeen_find? {K : Type} [DecidableEq K] (key : CanonicalRecord → K) (k : K) :
    ∀ (l : List CanonicalRecord) (seen : List K), k ∉ seen →
      (dedupSeen key l seen).find? (fun r => decide (key r = k)) =
        l.find? (fun r => decide (key r = k)) := by
  intro l
  induction l with
  | nil => intro seen _; rfl
  | cons a as ih =>
    intro seen hk
    by_cases ha : key a ∈ seen
    · rw [dedupSeen, if_pos ha]
      have hne : decide (key a = k) = false := by
        apply decide_eq_false
        intro hc
        exact hk (hc ▸ ha)
      rw [List.find?_cons_of_neg _ (by simp [hne]), ih seen hk]
    · rw [dedupSeen, if_neg ha]
      by_cases hak : key a = k
      · rw [List.find?_cons_of_pos _ (by simp [hak]),
          List.find?_cons_of_pos _ (by simp [hak])]
      · rw [List.find?_cons_of_neg _ (by simp [hak]),
          List.find?_cons_of_neg _ (by simp [hak])]
        refine ih (key a :: seen) ?_
        rw [List.mem_cons]
        push_neg
        exact ⟨fun hc => hak hc.symm, hk⟩

theorem dedupBy_find? {K : Type} [DecidableEq K] (key : CanonicalRecord → K) (k : K)
    (l : List CanonicalRecord) :
    (dedupBy key l).find? (fun r => decide (key r = k)) =
      l.find? (fun r => decide (key r = k)) :=
  dedupSeen_find? key k l [] (by simp)

theorem hasNonNullId_dedupBy_id (l : List CanonicalRecord) (h : hasNonNullId l = true) :
    hasNonNullId (dedupBy (fun r => r.id) l) = true := by
  rw [hasNonNullId, List.any_eq_true] at h ⊢
  obtain ⟨r, hr, hid⟩ := h
  have h1 : (l.find? (fun y => decide (y.id = r.id))).isSome :=
    List.find?_isSome.mpr ⟨r, hr, by simp⟩
  rw [← dedupBy_find? (fun y => y.id) r.id l] at h1
  obtain ⟨y, hy, hyp⟩ := List.find?_isSome.mp h1
  refine ⟨y, hy, ?_⟩
  rw [of_decide_eq_true hyp]
  exact hid

/-- C8: the deduplication pass is idempotent, returns a subsequence of its
input (so surviving records keep input order), and in each branch the
survivor for every key is the first input record with that key. -/
theorem c8_dedup_idempotent :
    (∀ rows : List CanonicalRecord,
      dedup_records (dedup_records rows) = dedup_records rows) ∧
    (∀ rows : List CanonicalRecord, (dedup_records rows).Sublist rows) ∧
    (∀ rows : List CanonicalRecord, hasNonNullId rows = true → ∀ k : Option String,
      (dedup_records rows).find? (fun r => decide (r.id = k)) =
        rows.find? (fun r => decide (r.id = k))) ∧
    (∀ rows : List CanonicalRecord, hasNonNullId rows = false →
      ∀ k : String × String × String,
      (dedup_records rows).find? (fun r => decide (tripleKey r = k)) =
        rows.find? (fun r => decide (tripleKey r = k))) := by
  have hsub : ∀ rows : List CanonicalRecord, (dedup_records rows).Sublist rows := by
    intro rows
    unfold dedup_records
    split
    · exact dedupSeen_sublist _ rows []
    · exact dedupSeen_sublist _ rows []
  refine ⟨?_, hsub, ?_, ?_⟩
  · intro rows
    by_cases h : hasNonNullId rows = true
    · have h1 : dedup_records rows = dedupBy (fun r => r.id) rows := by
        rw [dedup_records, if_pos h]
      have h2 : hasNonNullId (dedup_records rows) = true := by
        rw [h1]
        exact hasNonNullId_dedupBy_id rows h
      rw [h1] at h2 ⊢
      rw [dedup_records, if_pos h2]
      exact dedupBy_idem (fun r => r.id) rows
    · have hf : hasNonNullId rows = false := by
        revert h
        cases hasNonNullId rows <;> simp
      have h1 : dedup_records rows = dedupBy tripleKey rows := by
        rw [dedup_records, if_neg (by simp [hf])]
      have h2 : hasNonNullId (dedup_records rows) = false := by
        rw [hasNonNullId, List.any_eq_false]
        intro r hr
        have hrm : r ∈ rows := (hsub rows).subset hr
        rw [hasNonNullId, List.any_eq_false] at hf
        exact hf r hrm
      rw [h1] at h2 ⊢
      rw [dedup_records, if_neg (by simp [h2])]
      exact dedupBy_idem tripleKey rows
  · intro rows h k
    rw [dedup_records, if_pos h]
    exact dedupBy_find? (fun r => r.id) k rows
  · intro rows h k
    rw [dedup_records, if_neg (by simp [h])]
    exact dedupBy_find? tripleKey k rows

/-- Witness for C8: a concrete two-record input sharing one identifier;
idempotence and first-occurrence retrieval checked at that input. -/
theorem c8_dedup_idempotent_witness :
    dedup_records (dedup_records (transformRows (fun _ => none) []
      [{ id := some "1", title := some "A" }, { id := some "1", title := some "B" }])) =
      dedup_records (transformRows (fun _ => none) []
        [{ id := some "1", title := some "A" }, { id := some "1", title := some "B" }]) ∧
    (dedup_records (transformRows (fun _ => none) []
      [{ id := some "1", title := some "A" }, { id := some "1", title := some "B" }])).find?
        (fun r => decide (r.id = some "1")) =
      (transformRows (fun _ => none) []
        [{ id := some "1", title := some "A" }, { id := some "1", title := some "B" }]).find?
        (fun r => decide (r.id = some "1")) :=
  ⟨c8_dedup_idempotent.1 _, c8_dedup_idempotent.2.2.1 _ (by decide) (some "1")⟩

theorem countP_le_one_of_pairwise (p : CanonicalRecord → Bool) :
    ∀ l : List CanonicalRecord,
      l.Pairwise (fun a b => ¬(p a = true ∧ p b = true)) → l.countP p ≤ 1 := by
  intro l
  induction l with
  | nil => intro _; simp
  | cons a as ih =>
    intro hp
    rw [List.countP_cons]
    by_cases ha : p a = true
    · have h0 : as.countP p = 0 := by
        rw [List.countP_eq_zero]
        intro b hb
        intro hbp
        exact (List.pairwise_cons.mp hp).1 b hb ⟨ha, hbp⟩
      simp [h0, ha]
    · have ha2 : p a = false := by
        revert ha
        cases p a <;> simp
      have := ih (List.pairwise_cons.mp hp).2
      simp [ha2]
      omega

/-- C1 (amended): after deduplication every non-null identifier occurs at
most once, and null-identifier survivors have pairwise different
(title, company, location) triples; but when some record carries a
non-null identifier, the id-keyed pass treats all null identifiers as one
key (as pandas does), so at most one null-identifier record survives — two
null-identifier records with different triples do not both survive in that
case. -/
theorem c1_dedup_uniqueness (rows : List CanonicalRecord) :
    ((dedup_records rows).Pairwise (fun a b => ¬(a.id.isSome = true ∧ a.id = b.id))) ∧
    ((dedup_records rows).Pairwise
      (fun a b => a.id = none → b.id = none → tripleKey a ≠ tripleKey b)) ∧
    (hasNonNullId rows = true →
      (dedup_records rows).countP (fun r => decide (r.id = none)) ≤ 1) := by
  by_cases h : hasNonNullId rows = true
  · have h1 : dedup_records rows = dedupBy (fun r => r.id) rows := by
      rw [dedup_records, if_pos h]
    have hpw : (dedup_records rows).Pairwise (fun a b => a.id ≠ b.id) := by
      rw [h1]
      exact dedupSeen_pairwise (fun r => r.id) rows []
    refine ⟨hpw.imp ?_, hpw.imp ?_, ?_⟩
    · intro a b hab hc
      exact hab hc.2
    · intro a b hab ha hb
      exact absurd (ha.trans hb.symm) hab
    · intro _
      refine countP_le_one_of_pairwise _ _ (hpw.imp ?_)
      intro a b hab hc
      have ha := of_decide_eq_true hc.1
      have hb := of_decide_eq_true hc.2
      exact hab (ha.trans hb.symm)
  · have hf : hasNonNullId rows = false := by
      revert h
      cases hasNonNullId rows <;> simp
    have h1 : dedup_records rows = dedupBy tripleKey rows := by
      rw [dedup_records, if_neg (by simp [hf])]
    have hpw : (dedup_records rows).Pairwise (fun a b => tripleKey a ≠ tripleKey b) := by
      rw [h1]
      exact dedupSeen_pairwise tripleKey rows []
    have hids : ∀ r ∈ dedup_records rows, r.id.isSome = false := by
      intro r hr
      have hrm : r ∈ rows := by
        have hsub : (dedup_records rows).Sublist rows := by
          rw [h1]
          exact dedupSeen_sublist tripleKey rows []
        exact hsub.subset hr
      rw [hasNonNullId, List.any_eq_false] at hf
      simpa using hf r hrm
    refine ⟨?_, hpw.imp (fun hab _ _ => hab), ?_⟩
    · refine List.Pairwise.imp_of_mem ?_ hpw
      intro a b ha _ _ hc
      rw [hids a ha] at hc
      exact absurd hc.1 (by simp)
    · intro hc
      rw [hc] at hf
      simp at hf

/-- Counterexample to C1 as stated: with one non-null identifier present,
two null-identifier records with different (title, company, location)
triples do NOT both survive — the second one is dropped, because the
id-keyed pandas pass treats the two null keys as equal. -/
theorem c1_counterexample :
    dedup_records (transformRows (fun _ => none) []
      [{ id := some "1", title := some "A" },
       { id := none, title := some "B" },
       { id := none, title := some "C" }]) =
      [transformRow (fun _ => none) [] { id := some "1", title := some "A" },
       transformRow (fun _ => none) [] { id := none, title := some "B" }] ∧
    (transformRow (fun _ => none) [] { id := none, title := some "B" }).id = none ∧
    (transformRow (fun _ => none) [] { id := none, title := some "C" }).id = none ∧
    tripleKey (transformRow (fun _ => none) [] { id := none, title := some "B" }) ≠
      tripleKey (transformRow (fun _ => none) [] { id := none, title := some "C" }) ∧
    transformRow (fun _ => none) [] { id := none, title := some "C" } ∉
      dedup_records (transformRows (fun _ => none) []
        [{ id := some "1", title := some "A" },
         { id := none, title := some "B" },
         { id := none, title := some "C" }]) := by decide

/-- Witness for C1 at the three-record input (a non-null id is present and
at most one null-id record survives). -/
theorem c1_dedup_uniqueness_witness :
    hasNonNullId (transformRows (fun _ => none) []
      [{ id := some "1", title := some "A" },
       { id := none, title := some "B" },
       { id := none, title := some "C" }]) = true ∧
    (dedup_records (transformRows (fun _ => none) []
      [{ id := some "1", title := some "A" },
       { id := none, title := some "B" },
       { id := none, title := some "C" }])).countP (fun r => decide (r.id = none)) ≤ 1 :=
  ⟨by decide, (c1_dedup_uniqueness _).2.2 (by decide)⟩

/-! ### Text-normalization lemmas (for C9) -/

theorem singleton_prefix_iff_head? (b : Char) (l : List Char) :
    [b] <+: l ↔ l.head? = some b := by
  cases l with
  | nil =>
    simp
  | cons x xs =>
    rw [List.cons_prefix_cons]
    simp [eq_comm]

theorem pair_infix_cons (a b c : Char) (l : List Char) :
    [a, b] <:+: c :: l ↔ (c = a ∧ l.head? = some b) ∨ [a, b] <:+: l := by
  rw [List.infix_cons_iff, List.cons_prefix_cons, singleton_prefix_iff_head?]
  constructor
  · rintro (⟨h1, h2⟩ | h)
    · exact Or.inl ⟨h1.symm, h2⟩
    · exact Or.inr h
  · rintro (⟨h1, h2⟩ | h)
    · exact Or.inl ⟨h1.symm, h2⟩
    · exact Or.inr h

theorem collapseNL_head? (l : List Char) : (collapseNL l).head? = l.head? := by
  induction l with
  | nil => rfl
  | cons c cs ih =>
    by_cases h : c = '\n' ∧ cs.head? = some '\n'
    · rw [collapseNL, if_pos h, ih, h.2, h.1]
      rfl
    · rw [collapseNL, if_neg h]
      rfl

theorem collapseNL_no_nn (l : List Char) : ¬ ['\n', '\n'] <:+: collapseNL l := by
  induction l with
  | nil =>
    intro h
    have := h.subset (a := '\n') (by simp)
    simp [collapseNL] at this
  | cons c cs ih =>
    by_cases h : c = '\n' ∧ cs.head? = some '\n'
    · rw [collapseNL, if_pos h]
      exact ih
    · rw [collapseNL, if_neg h]
      intro hinf
      rcases (pair_infix_cons _ _ _ _).mp hinf with ⟨h1, h2⟩ | hrec
      · rw [collapseNL_head? cs] at h2
        exact h ⟨h1, h2⟩
      · exact ih hrec

theorem replCRLF_head? (l : List Char) :
    (replCRLF l).head? = l.head? ∨
      ((replCRLF l).head? = some '\n' ∧ l.head? = some '\r') := by
  match l with
  | [] => exact Or.inl rfl
  | [c] => exact Or.inl rfl
  | c :: c2 :: rest =>
    by_cases h : c = '\r' ∧ c2 = '\n'
    · rw [replCRLF, if_pos h]
      exact Or.inr ⟨rfl, by simp [h.1]⟩
    · rw [replCRLF, if_neg h]
      exact Or.inl rfl

theorem replCRLF_no_crlf (l : List Char) (h : ¬ ['\r', '\r'] <:+: l) :
    ¬ ['\r', '\n'] <:+: replCRLF l := by
  induction l using replCRLF.induct with
  | case1 =>
    intro hinf
    have := hinf.subset (a := '\r') (by simp)
    simp [replCRLF] at this
  | case2 c =>
    intro hinf
    have hs := hinf.sublist.length_le
    simp [replCRLF] at hs
  | case3 c c2 rest hp ih =>
    rw [replCRLF, if_pos hp]
    intro hinf
    rcases (pair_infix_cons _ _ _ _).mp hinf with ⟨h1, _⟩ | hrec
    · exact absurd h1 (by decide)
    · refine ih ?_ hrec
      intro hin
      refine h (hin.trans ?_)
      have h1 : rest <:+ c2 :: rest := List.suffix_cons c2 rest
      exact ((h1.trans (List.suffix_cons c (c2 :: rest)))).isInfix
  | case4 c c2 rest hp ih =>
    rw [replCRLF, if_neg hp]
    intro hinf
    rcases (pair_infix_cons _ _ _ _).mp hinf with ⟨h1, h2⟩ | hrec
    · rcases replCRLF_head? (c2 :: rest) with he | ⟨_, he2⟩
      · rw [he] at h2
        simp at h2
        exact hp ⟨h1, h2⟩
      · simp at he2
        refine h ?_
        refine List.IsPrefix.isInfix ?_
        rw [h1, he2]
        exact ⟨rest, rfl⟩
    · refine ih ?_ hrec
      intro hin
      exact h (hin.trans (List.suffix_cons c (c2 :: rest)).isInfix)

theorem collapseNL_no_crlf (l : List Char) (h : ¬ ['\r', '\n'] <:+: l) :
    ¬ ['\r', '\n'] <:+: collapseNL l := by
  induction l with
  | nil =>
    intro hinf
    have := hinf.subset (a := '\r') (by simp)
    simp [collapseNL] at this
  | cons c cs ih =>
    have hcs : ¬ ['\r', '\n'] <:+: cs := by
      intro hin
      exact h (hin.trans (List.suffix_cons c cs).isInfix)
    by_cases hp : c = '\n' ∧ cs.head? = some '\n'
    · rw [collapseNL, if_pos hp]
      exact ih hcs
    · rw [collapseNL, if_neg hp]
      intro hinf
      rcases (pair_infix_cons _ _ _ _).mp hinf with ⟨h1, h2⟩ | hrec
      · rw [collapseNL_head? cs] at h2
        refine h (List.IsPrefix.isInfix ?_)
        rcases cs with _ | ⟨x, xs⟩
        · simp at h2
        · simp at h2
          rw [h1, h2]
          exact ⟨xs, rfl⟩
      · exact ih hcs hrec

theorem dropTrail_pre (l : List Char) : dropTrail l <+: l := by
  rw [← List.reverse_suffix]
  unfold dropTrail
  rw [List.reverse_reverse]
  exact List.dropWhile_suffix isWS

theorem stripChars_inf (l : List Char) : stripChars l <:+: l := by
  unfold stripChars
  exact (dropTrail_pre _).isInfix.trans (List.dropWhile_suffix isWS).isInfix

theorem dropWhile_head_not (p : Char → Bool) (l : List Char) (c : Char)
    (h : (l.dropWhile p).head? = some c) : p c = false := by
  induction l with
  | nil => simp at h
  | cons a as ih =>
    by_cases hp : p a = true
    · rw [List.dropWhile_cons_of_pos hp] at h
      exact ih h
    · have hp2 : p a = false := by
        revert hp
        cases p a <;> simp
      rw [List.dropWhile_cons_of_neg (by simp [hp2])] at h
      simp at h
      rw [← h]
      exact hp2

theorem prefix_head? (x y : List Char) (h : x <+: y) (hne : x ≠ []) :
    x.head? = y.head? := by
  obtain ⟨t, rfl⟩ := h
  cases x with
  | nil => exact absurd rfl hne
  | cons a as => rfl

theorem stripChars_head (l : List Char) (c : Char)
    (h : (stripChars l).head? = some c) : isWS c = false := by
  have hne : stripChars l ≠ [] := by
    intro he
    rw [he] at h
    simp at h
  have hpre : stripChars l <+: l.dropWhile isWS := dropTrail_pre _
  rw [prefix_head? _ _ hpre hne] at h
  exact dropWhile_head_not isWS l c h

theorem stripChars_last (l : List Char) (c : Char)
    (h : (stripChars l).getLast? = some c) : isWS c = false := by
  have h2 : ((l.dropWhile isWS).reverse.dropWhile isWS).head? = some c := by
    have he : stripChars l = ((l.dropWhile isWS).reverse.dropWhile isWS).reverse := rfl
    rw [he, List.getLast?_reverse] at h
    exact h
  exact dropWhile_head_not isWS _ c h2

/-- C9: `clean_text` is total (it is a function into text); null and empty
input give the empty string; the result never contains two consecutive
newlines; its ends are trimmed of whitespace; and every CR LF pair is
collapsed — when the input has no overlapping "\r\r" run, the result
contains no CR LF at all. -/
theorem c9_clean_text :
    clean_text none = "" ∧ clean_text (some "") = "" ∧
    (∀ s : String, ¬ ['\n', '\n'] <:+: (clean_text (some s)).data) ∧
    (∀ (s : String) (c : Char),
      ((clean_text (some s)).data.head? = some c → isWS c = false) ∧
      ((clean_text (some s)).data.getLast? = some c → isWS c = false)) ∧
    (∀ s : String, ¬ ['\r', '\r'] <:+: s.data →
      ¬ ['\r', '\n'] <:+: (clean_text (some s)).data) := by
  have hdata : ∀ s : String, s.data ≠ [] →
      (clean_text (some s)).data = stripChars (collapseNL (replCRLF s.data)) := by
    intro s hs
    rw [clean_text, if_neg hs]
  refine ⟨rfl, rfl, ?_, ?_, ?_⟩
  · intro s
    by_cases hs : s.data = []
    · rw [clean_text, if_pos hs]
      intro hinf
      have := hinf.subset (a := '\n') (by simp)
      simp at this
    · rw [hdata s hs]
      intro hinf
      exact collapseNL_no_nn (replCRLF s.data) (hinf.trans (stripChars_inf _))
  · intro s c
    by_cases hs : s.data = []
    · rw [clean_text, if_pos hs]
      constructor <;> (intro h; simp at h)
    · rw [hdata s hs]
      exact ⟨stripChars_head _ c, stripChars_last _ c⟩
  · intro s hrr
    by_cases hs : s.data = []
    · rw [clean_text, if_pos hs]
      intro hinf
      have := hinf.subset (a := '\r') (by simp)
      simp at this
    · rw [hdata s hs]
      intro hinf
      exact collapseNL_no_crlf (replCRLF s.data) (replCRLF_no_crlf s.data hrr)
        (hinf.trans (stripChars_inf _))

/-- Witness for C9 at a concrete messy string. -/
theorem c9_clean_text_witness :
    (¬ ['\r', '\r'] <:+: ("  a\r\nb\n\n\nc  " : String).data) ∧
    ¬ ['\r', '\n'] <:+: (clean_text (some "  a\r\nb\n\n\nc  ")).data :=
  ⟨by decide, c9_clean_text.2.2.2.2 "  a\r\nb\n\n\nc  " (by decide)⟩

end JobPipeline
